import Mathlib

/-!
Verification of the incremental change/undo engine of the fontra client.

The definitions below are a shallow embedding of the JavaScript source:

* `src/fontra/client/core/changes.js` — change trees, consolidation,
  application, matching, and the `ChangeCollector` class;
* the font-controller module — `UndoStack`, `FontController.undoRedoGlyph`,
  `FontController.updateGlyphDependencies`, `GlyphEditContext`;
* `throttleCalls` from the utils module.

JavaScript objects with the optional keys `p` / `f` / `a` / `c` are embedded
as the `Change` type, where an absent key is `none`.  JavaScript values
reachable from a document root are embedded as the `JSValue` tree type;
mutation of a nested subject in place is embedded as a pure update of the
document along the access path.  JavaScript truthiness tests that the source
relies on (`!pathElement`, `if (functionName)`, `path?.length`) are embedded
by explicit `Bool`-valued functions.
-/

/-- A path segment: a JS string key or a non-negative array index. -/
inductive PathElem where
  | str (s : String)
  | num (n : Nat)
deriving DecidableEq, Repr

/-- JS falsiness of a path segment: `!pathElement` in `findCommonPrefix`
is true for the number 0 and for the empty string. -/
def PathElem.isFalsy : PathElem → Bool
  | .str s => s == ""
  | .num n => n == 0

/-- A JSON-like JS value, used for document roots and operation arguments.
`undefined` embeds the JS value `undefined` (the result of a failed property
access, and representable inside arrays/objects). -/
inductive JSValue where
  | obj (fields : List (String × JSValue))
  | arr (elems : List JSValue)
  | str (s : String)
  | num (n : Int)
  | bool (b : Bool)
  | null
  | undefined

/-- A "change" object from changes.js: optional keys
`p` (path), `f` (function name), `a` (arguments), `c` (children).
An absent key is `none`. -/
inductive Change where
  | mk (p : Option (List PathElem)) (f : Option String)
      (a : Option (List JSValue)) (c : Option (List Change))

def Change.p : Change → Option (List PathElem)
  | .mk p _ _ _ => p

def Change.f : Change → Option String
  | .mk _ f _ _ => f

def Change.a : Change → Option (List JSValue)
  | .mk _ _ a _ => a

def Change.c : Change → Option (List Change)
  | .mk _ _ _ c => c

/-- The empty change object `{}`. -/
def emptyChange : Change := .mk none none none none

/-- JS truthiness of `change.f` (present and not the empty string). -/
def fTruthy (f : Option String) : Bool :=
  match f with
  | none => false
  | some s => !(s == "")

/-- JS truthiness of `change.p?.length` (present and non-empty). -/
def pTruthy (p : Option (List PathElem)) : Bool :=
  match p with
  | none => false
  | some l => !l.isEmpty

/-- Embeds `isNotEmpty` from changes.js: the JS object has at least one key. -/
def isNotEmpty (change : Change) : Bool :=
  change.p.isSome || change.f.isSome || change.a.isSome || change.c.isSome

/-- The scanning loop of `findCommonPrefix` from changes.js, with the index
variable replaced by structural recursion on the first path (the other paths
are shifted in step).  The loop stops when the first path is exhausted or
its next segment is falsy (`!pathElement`), or when another path disagrees
at the current position (`changes[i].p[index] !== pathElement`, which also
covers a shorter path, whose segment is `undefined`). -/
def commonPrefixScan (p0 : List PathElem) (rest : List (List PathElem)) :
    List PathElem :=
  match p0 with
  | [] => []
  | e :: tl =>
    if e.isFalsy then []
    else if rest.all (fun q => q.head? == some e) then
      e :: commonPrefixScan tl (rest.map List.tail)
    else []

/-- Embeds `findCommonPrefix` from changes.js.  Returns `[]` when the list is
empty or when any change lacks a path or has an empty path; otherwise runs
the scanning loop. -/
def findCommonPrefix (changes : List Change) : List PathElem :=
  match changes with
  | [] => []
  | c0 :: rest =>
    if (c0 :: rest).all (fun ch => pTruthy ch.p) then
      commonPrefixScan (c0.p.getD []) (rest.map (fun ch => ch.p.getD []))
    else []

/-- Embeds `addPathPrefix` from changes.js. -/
def addPathPrefix (change : Change) (prefixPath : List PathElem) : Change :=
  .mk (some (prefixPath ++ change.p.getD [])) change.f change.a change.c

mutual

/-- Embeds `unnestSingleChildren` from changes.js: recursively unnest children,
prune empty ones; a node whose surviving children are a single child and
whose own `f` is falsy after pruning rules collapses into that child with
the paths concatenated. -/
def unnestSingleChildren : Change → Change
  | .mk p f a c =>
    match c with
    | none =>
      -- children is undefined: keep the change, unless it has no (truthy) f
      if fTruthy f then .mk p f a none else emptyChange
    | some cs =>
      let children := (unnestList cs).filter isNotEmpty
      match children with
      | [] =>
        -- remove the empty children array; drop the change if f is falsy
        if fTruthy f then .mk p f a none else emptyChange
      | [child] =>
        -- collapse into the single child, concatenating paths
        let childPath := child.p.getD []
        let path := if pTruthy p then p.getD [] ++ childPath else childPath
        .mk (if path.isEmpty then none else some path) child.f child.a child.c
      | _ => .mk p f a (some children)

def unnestList : List Change → List Change
  | [] => []
  | x :: xs => unnestSingleChildren x :: unnestList xs

end

/-- Embeds `consolidateChanges` from changes.js, for an array argument.
(The non-array call sites pass a one-element list here; in particular the
collector getters pass `[emptyChange]` for the `{}` argument.) -/
def consolidateChanges (changes : List Change) (prefixPath : Option (List PathElem)) :
    Change :=
  let pair : Change × Option (List PathElem) :=
    match changes with
    | [x] => (x, x.p)
    | _ =>
      let commonPath := findCommonPrefix changes
      let numCommonElements := commonPath.length
      if numCommonElements ≠ 0 then
        let stripped := changes.map (fun ch =>
          let np := (ch.p.getD []).drop numCommonElements
          Change.mk (if np.isEmpty then none else some np) ch.f ch.a ch.c)
        (.mk none none none (some stripped), some commonPath)
      else
        -- zap empty p
        let zapped := changes.map (fun ch =>
          if ch.p == some [] then Change.mk none ch.f ch.a ch.c else ch)
        (.mk none none none (some zapped), none)
  let change := pair.1
  let path := pair.2
  let change :=
    if pTruthy path then
      Change.mk path change.f change.a change.c
    else
      Change.mk none change.f change.a change.c
  let change := unnestSingleChildren change
  match prefixPath with
  | some pp => if !pp.isEmpty then addPathPrefix change pp else change
  | none => change

/-- Result of the own-path loop of `matchChange` from changes.js:
the loop either returns false (a segment mismatches, or `matchPath` runs
out while the node path continues), returns true (`matchPath` is fully
consumed), or falls through with the remaining `matchPath` suffix. -/
inductive WalkResult where
  | noMatch
  | fullMatch
  | remaining (rest : List PathElem)

/-- The `for (const pathElement of path)` loop of `matchChange`:
`matchPath.shift()` on an exhausted list yields `undefined`, which can
never equal a path element, so the loop returns false in that case. -/
def walkOwnPath : List PathElem → List PathElem → WalkResult
  | [], ms => .remaining ms
  | _ :: _, [] => .noMatch
  | e :: es, m :: ms =>
    if e = m then (if ms.isEmpty then .fullMatch else walkOwnPath es ms)
    else .noMatch

mutual

/-- Embeds `matchChange` from changes.js: walk the node's own path against
`matchPath`; on fall-through, try every child on the remaining suffix. -/
def matchChange : Change → List PathElem → Bool
  | .mk p _ _ c, matchPath =>
    match walkOwnPath (p.getD []) matchPath with
    | .noMatch => false
    | .fullMatch => true
    | .remaining rest =>
      match c with
      | none => false
      | some cs => matchAnyChild cs rest

def matchAnyChild : List Change → List PathElem → Bool
  | [], _ => false
  | sub :: subs, rest => matchChange sub rest || matchAnyChild subs rest

end

/-! Part: Applying changes

`applyChange(subject, change)` in changes.js descends the live document
along the change path by repeated property access, mutating the resolved
subject in place.  On the tree-shaped `JSValue` documents this is embedded
as a pure update: the recursion carries the resolved subject down and
writes the updated subject back along the access spine on the way up. -/

/-- First-match lookup in a JS-object field list (keys are unique because
`setField` replaces in place). -/
def lookupField : List (String × JSValue) → String → Option JSValue
  | [], _ => none
  | (k, v) :: rest, key => if k = key then some v else lookupField rest key

/-- Replace the value for a key, or append a new binding. -/
def setField : List (String × JSValue) → String → JSValue → List (String × JSValue)
  | [], key, v => [(key, v)]
  | (k, w) :: rest, key, v =>
    if k = key then (k, v) :: rest else (k, w) :: setField rest key v

/-- Embeds `subject[pathElement]`: object key access (a numeric key is coerced to
its decimal string, as in JS) or array indexing; any failed access yields
`undefined`.  (Character indexing into strings is not part of the document
model and also yields `undefined` here.) -/
def getProp : JSValue → PathElem → JSValue
  | .obj fields, .str s => (lookupField fields s).getD .undefined
  | .obj fields, .num n => (lookupField fields (toString n)).getD .undefined
  | .arr elems, .num n => elems.getD n .undefined
  | _, _ => .undefined

/-- Embeds `subject[pathElement] = v` for subjects on which the access succeeded. -/
def setProp : JSValue → PathElem → JSValue → JSValue
  | .obj fields, .str s, v => .obj (setField fields s v)
  | .obj fields, .num n, v => .obj (setField fields (toString n) v)
  | .arr elems, .num n, v => .arr (elems.set n v)
  | subject, _, _ => subject

def JSValue.isUndefined : JSValue → Bool
  | .undefined => true
  | _ => false

/-- JS `ToPropertyKey` for the argument of the `"="` / `"d"` operations,
restricted to primitive keys (an object-valued key is not modeled). -/
def jsPropKey : JSValue → Option String
  | .str s => some s
  | .num n => some (toString n)
  | .bool b => some (toString b)
  | .null => some "null"
  | .undefined => some "undefined"
  | _ => none

/-- Delete a key from a JS-object field list (`delete subject[key]`). -/
def deleteField : List (String × JSValue) → String → List (String × JSValue)
  | [], _ => []
  | (k, w) :: rest, key =>
    if k = key then rest else (k, w) :: deleteField rest key

/-- Embeds `Array.prototype.splice` index/count clamping on a list. -/
def spliceList (elems : List JSValue) (start deleteCount : Int)
    (items : List JSValue) : List JSValue :=
  let len : Int := elems.length
  let s : Nat := (if start < 0 then max (len + start) 0 else min start len).toNat
  let d : Nat := (min (max deleteCount 0) (len - s)).toNat
  elems.take s ++ items ++ elems.drop (s + d)

/-- JS integer coercion of a splice argument; only numbers and `undefined`
(which coerces to 0) are modeled. -/
def jsSpliceIndex : JSValue → Except String Int
  | .num n => .ok n
  | .undefined => .ok 0
  | _ => .error "unmodeled argument coercion"

/-- Embeds `"="`: `(subject, key, item) => subject[key] = item`.  Assigning a
property of a primitive throws in strict mode; assigning past the end of an
array fills the gap with holes (read back as `undefined`). -/
def changeFuncAssign (subject : JSValue) (args : List JSValue) :
    Except String JSValue :=
  let key := args.getD 0 .undefined
  let item := args.getD 1 .undefined
  match subject with
  | .obj fields =>
    match jsPropKey key with
    | some k => .ok (.obj (setField fields k item))
    | none => .error "unmodeled property key"
  | .arr elems =>
    match key with
    | .num n =>
      if n < 0 then .ok (.arr elems)  -- a named property of the array; lost
      else
        let i := n.toNat
        if i < elems.length then .ok (.arr (elems.set i item))
        else .ok (.arr (elems ++ List.replicate (i - elems.length) .undefined ++ [item]))
    | _ => .ok (.arr elems)  -- non-index property of the array; lost
  | _ => .error "cannot create property on primitive"

/-- Embeds `"d"`: `(subject, key) => delete subject[key]`.  Deleting an array
element leaves a hole; delete on a primitive has no effect. -/
def changeFuncDelete (subject : JSValue) (args : List JSValue) :
    Except String JSValue :=
  let key := args.getD 0 .undefined
  match subject with
  | .obj fields =>
    match jsPropKey key with
    | some k => .ok (.obj (deleteField fields k))
    | none => .error "unmodeled property key"
  | .arr elems =>
    match key with
    | .num n =>
      if 0 ≤ n ∧ n.toNat < elems.length then .ok (.arr (elems.set n.toNat .undefined))
      else .ok (.arr elems)
    | _ => .ok (.arr elems)
  | _ => .ok subject

/-- Embeds `"-"`: `(subject, index, deleteCount = 1) => subject.splice(index, deleteCount)`. -/
def changeFuncSpliceRemove (subject : JSValue) (args : List JSValue) :
    Except String JSValue :=
  match subject with
  | .arr elems => do
    let start ← jsSpliceIndex (args.getD 0 .undefined)
    let dc ← match args.getD 1 .undefined with
      | .undefined => pure 1  -- default parameter
      | v => jsSpliceIndex v
    .ok (.arr (spliceList elems start dc []))
  | _ => .error "splice is not a function"

/-- Embeds `"+"`: `(subject, index, ...items) => subject.splice(index, 0, ...items)`. -/
def changeFuncSpliceInsert (subject : JSValue) (args : List JSValue) :
    Except String JSValue :=
  match subject with
  | .arr elems => do
    let start ← jsSpliceIndex (args.getD 0 .undefined)
    .ok (.arr (spliceList elems start 0 (args.drop 1)))
  | _ => .error "splice is not a function"

/-- Embeds `":"`: `(subject, index, deleteCount, ...items) =>
subject.splice(index, deleteCount, ...items)`. -/
def changeFuncSpliceReplace (subject : JSValue) (args : List JSValue) :
    Except String JSValue :=
  match subject with
  | .arr elems => do
    let start ← jsSpliceIndex (args.getD 0 .undefined)
    let dc ← jsSpliceIndex (args.getD 1 .undefined)
    .ok (.arr (spliceList elems start dc (args.drop 2)))
  | _ => .error "splice is not a function"

/-- The `changeFunctions` registry from changes.js: the five structural
base operations, plus the domain-specific operations (`"=xy"`,
`insertContour`, `deleteContour`, `deletePoint`, `insertPoint`), which call
methods of the editable path object; such methods do not exist on the plain
JSON documents modeled by `JSValue`, so on this document universe those
entries fail (a method call on plain data is a `TypeError`). -/
def changeFunctions (name : String) :
    Option (JSValue → List JSValue → Except String JSValue) :=
  if name = "=" then some changeFuncAssign
  else if name = "d" then some changeFuncDelete
  else if name = "-" then some changeFuncSpliceRemove
  else if name = "+" then some changeFuncSpliceInsert
  else if name = ":" then some changeFuncSpliceReplace
  else if name = "=xy" || name = "insertContour" || name = "deleteContour"
      || name = "deletePoint" || name = "insertPoint" then
    some (fun _ _ => .error "method call on plain data")
  else none

/-- The `if (functionName)` block of `applyChange`: look the name up in the
registry (an unknown name makes `changeFunc` `undefined`, and calling it
throws a `TypeError`) and invoke it on the subject with `change["a"] || []`. -/
def applyOwnFunc (subject : JSValue) (change : Change) : Except String JSValue :=
  if fTruthy change.f then
    match changeFunctions (change.f.getD "") with
    | none => .error "changeFunc is not a function"
    | some impl => impl subject (change.a.getD [])
  else .ok subject

mutual

/-- Embeds `applyChange(subject, change)` from changes.js. -/
def applyChange (subject : JSValue) (change : Change) : Except String JSValue :=
  applyChangeAt subject (change.p.getD []) change
termination_by (sizeOf change, (change.p.getD []).length + 1)
decreasing_by
  exact Prod.Lex.right _ (Nat.lt_succ_self _)

/-- The descent loop of `applyChange`: follow the path, throwing when a
segment resolves to `undefined`; at the end, run the operation and the
children on the resolved subject, and write the updated subject back along
the spine (the JS code mutates the resolved subject in place). -/
def applyChangeAt (subject : JSValue) (path : List PathElem) (change : Change) :
    Except String JSValue :=
  match path with
  | [] =>
    match applyOwnFunc subject change with
    | .error e => .error e
    | .ok s1 =>
      match hc : change.c with
      | none => .ok s1
      | some cs => applyChildren s1 cs
  | e :: rest =>
    let child := getProp subject e
    if child.isUndefined then .error "assert -- invalid change path"
    else
      match applyChangeAt child rest change with
      | .error err => .error err
      | .ok c1 => .ok (setProp subject e c1)
termination_by (sizeOf change, path.length)
decreasing_by
  · apply Prod.Lex.left
    cases change with
    | mk p f a c =>
      cases c with
      | none => simp [Change.c] at hc
      | some cs0 =>
        simp only [Change.c, Option.some.injEq] at hc
        subst hc
        simp
        omega
  · exact Prod.Lex.right _ (Nat.lt_succ_self _)

/-- The `for (const subChange of children)` loop of `applyChange`. -/
def applyChildren (subject : JSValue) (cs : List Change) : Except String JSValue :=
  match cs with
  | [] => .ok subject
  | sub :: rest =>
    match applyChange subject sub with
    | .error e => .error e
    | .ok s1 => applyChildren s1 rest
termination_by (sizeOf cs, 0)
decreasing_by
  all_goals apply Prod.Lex.left
  all_goals simp
  all_goals try omega

end

/-- Pure repeated property access along a path (absorbing on `undefined`). -/
def iterGet (subject : JSValue) (path : List PathElem) : JSValue :=
  match path with
  | [] => subject
  | e :: rest => iterGet (getProp subject e) rest

/-- Whether the descent of `applyChange` succeeds: no segment of the path
resolves to `undefined`. -/
def descendOk (subject : JSValue) (path : List PathElem) : Bool :=
  match path with
  | [] => true
  | e :: rest => !(getProp subject e).isUndefined && descendOk (getProp subject e) rest

/-- Write a value back at the end of an access path (the pure counterpart
of mutating the resolved subject in place). -/
def setAtPath (subject : JSValue) (path : List PathElem) (v : JSValue) : JSValue :=
  match path with
  | [] => v
  | e :: rest => setProp subject e (setAtPath (getProp subject e) rest v)

/-! Part: ChangeCollector

Only the parts of the `ChangeCollector` class exercised by the claims are
embedded: the two change lists (`undefined` until materialized) and
`concat`, which builds a collector from plain arrays
(`ChangeCollector._fromChangeArrays`).  The parent/path machinery used by
`subCollector` to share storage with the parent collector is not needed
for the concatenation claim. -/

structure ChangeCollector where
  forwardChanges : Option (List Change)
  rollbackChanges : Option (List Change)

/-- Embeds `get hasChange()`: the forward list exists and is non-empty. -/
def ChangeCollector.hasChange (c : ChangeCollector) : Bool :=
  match c.forwardChanges with
  | none => false
  | some l => !l.isEmpty

/-- Embeds `get hasRollbackChange()`. -/
def ChangeCollector.hasRollbackChange (c : ChangeCollector) : Bool :=
  match c.rollbackChanges with
  | none => false
  | some l => !l.isEmpty

/-- Embeds `get change()`: `consolidateChanges(this._forwardChanges || {})` — an
unmaterialized list consolidates the single empty change object. -/
def ChangeCollector.change (c : ChangeCollector) : Change :=
  match c.forwardChanges with
  | none => consolidateChanges [emptyChange] none
  | some l => consolidateChanges l none

/-- Embeds `get rollbackChange()`. -/
def ChangeCollector.rollbackChange (c : ChangeCollector) : Change :=
  match c.rollbackChanges with
  | none => consolidateChanges [emptyChange] none
  | some l => consolidateChanges l none

/-- Embeds `concat(...others)` from changes.js: start from this collector's lists,
then for each other collector append its forward list
(`forwardChanges.push(...)`) and prepend its rollback list
(`rollbackChanges.splice(0, 0, ...)`). -/
def ChangeCollector.concat (self : ChangeCollector) (others : List ChangeCollector) :
    ChangeCollector :=
  let fwd := if self.hasChange then self.forwardChanges.getD [] else []
  let rbk := if self.hasRollbackChange then self.rollbackChanges.getD [] else []
  let result := others.foldl
    (fun (acc : List Change × List Change) other =>
      (acc.1 ++ (if other.hasChange then other.forwardChanges.getD [] else []),
       (if other.hasRollbackChange then other.rollbackChanges.getD [] else []) ++ acc.2))
    (fwd, rbk)
  ChangeCollector.mk (some result.1) (some result.2)

/-! Part: Undo stack and FontController glyph undo

From the font-controller module: `UndoStack`, `_popUndoRedoRecord`,
`reverseUndoRecord` / `reverseUndoInfo`, and `undoRedoGlyph`.  Stacks are
JS arrays whose top is the last element (`push` appends,
`splice(-1, 1)` removes the last element). -/

/-- The `info` part of an undo record: `label`, optional
`undoSelection` / `redoSelection` (and nothing else that `reverseUndoInfo`
would need to swap). -/
structure UndoInfo where
  label : String
  undoSelection : Option JSValue
  redoSelection : Option JSValue

structure UndoRecord where
  change : Change
  rollbackChange : Change
  info : UndoInfo

structure UndoStack where
  undoStack : List UndoRecord
  redoStack : List UndoRecord

/-- Embeds `pushUndoRecord`: push onto the undo stack, clear the redo stack. -/
def UndoStack.pushUndoRecord (s : UndoStack) (undoRecord : UndoRecord) : UndoStack :=
  UndoStack.mk (s.undoStack ++ [undoRecord]) []

/-- Embeds `getTopUndoRedoRecord(isRedo)`: peek the top of the relevant stack. -/
def UndoStack.getTopUndoRedoRecord (s : UndoStack) (isRedo : Bool) : Option UndoRecord :=
  if isRedo then s.redoStack.getLast? else s.undoStack.getLast?

/-- Embeds `_popUndoRedoRecord(popStack, pushStack)`: empty pop stack returns
`undefined` without touching either stack; otherwise remove the last
record of the pop stack and push the same record onto the push stack. -/
def popUndoRedoRecordAux (popStack pushStack : List UndoRecord) :
    Option UndoRecord × List UndoRecord × List UndoRecord :=
  match popStack.getLast? with
  | none => (none, popStack, pushStack)
  | some undoRecord => (some undoRecord, popStack.dropLast, pushStack ++ [undoRecord])

/-- Embeds `popUndoRedoRecord(isRedo)`, returning the popped record and the
updated stack pair (the JS method mutates the two arrays in place). -/
def UndoStack.popUndoRedoRecord (s : UndoStack) (isRedo : Bool) :
    Option UndoRecord × UndoStack :=
  if !isRedo then
    let r := popUndoRedoRecordAux s.undoStack s.redoStack
    (r.1, UndoStack.mk r.2.1 r.2.2)
  else
    let r := popUndoRedoRecordAux s.redoStack s.undoStack
    (r.1, UndoStack.mk r.2.2 r.2.1)

/-- Embeds `reverseUndoInfo`: swap the `undoSelection` / `redoSelection` keys. -/
def reverseUndoInfo (undoInfo : UndoInfo) : UndoInfo :=
  UndoInfo.mk undoInfo.label undoInfo.redoSelection undoInfo.undoSelection

/-- Embeds `reverseUndoRecord`: swap change and rollback, reverse the info. -/
def reverseUndoRecord (undoRecord : UndoRecord) : UndoRecord :=
  UndoRecord.mk undoRecord.rollbackChange undoRecord.change
    (reverseUndoInfo undoRecord.info)

/-- The externally visible steps `undoRedoGlyph` performs after a record
was successfully popped: apply the rollback locally, commit it remotely
with `font.editFinal`, and schedule an edit-listener notification. -/
inductive FCAction where
  | applyChangeAction (change : Change)
  | editFinalAction (change rollback : Change) (label : String) (broadcast : Bool)
  | notifyAction (event : String)

/-- The part of the `FontController` state that `undoRedoGlyph` reads or
writes: the per-glyph undo stacks (`this.undoStacks`, a JS object keyed by
glyph name, embedded as an association list). -/
structure FontControllerState where
  undoStacks : List (String × UndoStack)

def lookupStack : List (String × UndoStack) → String → Option UndoStack
  | [], _ => none
  | (k, v) :: rest, key => if k = key then some v else lookupStack rest key

def setStack : List (String × UndoStack) → String → UndoStack → List (String × UndoStack)
  | [], key, v => [(key, v)]
  | (k, w) :: rest, key, v =>
    if k = key then (k, v) :: rest else (k, w) :: setStack rest key v

/-- Embeds `FontController.undoRedoGlyph(glyphName, isRedo)`: pop a record from
the glyph's undo stack (optional chaining: a glyph without a stack yields
`undefined`); an `undefined` record returns immediately (the empty-stack
pop performed no mutation, so the state is unchanged and nothing else
runs); otherwise reverse the record when redoing, apply the rollback,
commit it remotely, schedule the notification and return the record's
info. -/
def undoRedoGlyph (st : FontControllerState) (glyphName : String) (isRedo : Bool) :
    Option UndoInfo × FontControllerState × List FCAction :=
  match lookupStack st.undoStacks glyphName with
  | none => (none, st, [])
  | some stack =>
    match stack.popUndoRedoRecord isRedo with
    | (none, _) => (none, st, [])
    | (some undoRecord, stack1) =>
      let undoRecord := if isRedo then reverseUndoRecord undoRecord else undoRecord
      (some undoRecord.info,
       FontControllerState.mk (setStack st.undoStacks glyphName stack1),
       [FCAction.applyChangeAction undoRecord.rollbackChange,
        FCAction.editFinalAction undoRecord.rollbackChange undoRecord.change
          undoRecord.info.label true,
        FCAction.notifyAction "editFinal"])

/-! Part: Glyph dependency maps

`FontController.updateGlyphDependencies` maintains `glyphMadeOf` (glyph
name to list of direct component names) and `glyphUsedBy` (component name
to set of user names).  The two JS objects are embedded as total functions
with defaults (`undefined` reads behave as an empty list / absent set; a
present-but-empty set behaves identically to an absent one for every
membership question asked here). -/

structure GlyphDeps where
  glyphMadeOf : String → List String
  glyphUsedBy : String → Finset String

/-- Embeds `updateGlyphDependencies(glyph)` with the glyph abstracted to its name
and its `getAllComponentNames()` result: first zap the previous used-by
entries for this glyph, then store the new dependency list and add the
reverse edges. -/
def updateGlyphDependencies (st : GlyphDeps) (glyphName : String)
    (componentNames : List String) : GlyphDeps :=
  let usedBy1 := (st.glyphMadeOf glyphName).foldl
    (fun ub componentName =>
      Function.update ub componentName ((ub componentName).erase glyphName))
    st.glyphUsedBy
  let madeOf1 := Function.update st.glyphMadeOf glyphName componentNames
  let usedBy2 := componentNames.foldl
    (fun ub componentName =>
      Function.update ub componentName (insert glyphName (ub componentName)))
    usedBy1
  GlyphDeps.mk madeOf1 usedBy2

/-- The transpose invariant: `b ∈ usedBy[a]` iff `a ∈ madeOf[b]`. -/
def transposeInv (st : GlyphDeps) : Prop :=
  ∀ a b : String, b ∈ st.glyphUsedBy a ↔ a ∈ st.glyphMadeOf b

/-! Part: Edit session broadcasting

`GlyphEditContext` and `throttleCalls`: the wrapped
`throttledEditIncremental` keeps `lastTime` (time of the last immediate
send) and at most one pending timer carrying the latest change.  The state
below records the messages handed to `font.editIncremental` /
`font.editFinal` in order; `timerFire` is the scheduled timeout callback
running (which JS will do unless the timer is cleared first). -/

inductive SentMessage where
  | incrementalMsg (change : Change)
  | finalMsg (change : Change) (rollback : Change) (label : String) (broadcast : Bool)

structure EditSessionState where
  baseChangePath : List PathElem
  lastTime : Nat
  pending : Option Change
  sent : List SentMessage

/-- The wrapped function produced by `throttleCalls(func, minTime)`: clear
any pending timer; if more than `minTime` has elapsed since `lastTime`,
call through immediately and record the time, else schedule the call.
(The timeout callback itself does not update `lastTime`.) -/
def throttledEditIncremental (st : EditSessionState) (now minTime : Nat)
    (change : Change) : EditSessionState :=
  if now - st.lastTime > minTime then
    EditSessionState.mk st.baseChangePath now none
      (st.sent ++ [SentMessage.incrementalMsg change])
  else
    EditSessionState.mk st.baseChangePath st.lastTime (some change) st.sent

/-- Embeds `GlyphEditContext.editIncremental(change, mayDrop)`: consolidate
against the base path; `mayDrop` goes through the throttle, otherwise any
pending timer is cleared (`clearTimeout`) and the change is sent
immediately. -/
def editIncremental (st : EditSessionState) (now : Nat) (change : Change)
    (mayDrop : Bool) : EditSessionState :=
  let change := consolidateChanges [change] (some st.baseChangePath)
  if mayDrop then
    throttledEditIncremental st now 50 change
  else
    EditSessionState.mk st.baseChangePath st.lastTime none
      (st.sent ++ [SentMessage.incrementalMsg change])

/-- Embeds `GlyphEditContext.editFinal(change, rollback, undoInfo, broadcast)`:
consolidate both against the base path and commit.  Note: the pending
throttled timer is left untouched. -/
def editFinal (st : EditSessionState) (change rollback : Change)
    (label : String) (broadcast : Bool) : EditSessionState :=
  let change := consolidateChanges [change] (some st.baseChangePath)
  let rollback := consolidateChanges [rollback] (some st.baseChangePath)
  EditSessionState.mk st.baseChangePath st.lastTime st.pending
    (st.sent ++ [SentMessage.finalMsg change rollback label broadcast])

/-- The scheduled timeout callback of the throttle firing: send the
pending change. -/
def timerFire (st : EditSessionState) : EditSessionState :=
  match st.pending with
  | none => st
  | some change =>
    EditSessionState.mk st.baseChangePath st.lastTime none
      (st.sent ++ [SentMessage.incrementalMsg change])

/-- The application of a change to its resolved subject: run the operation
(if present), then the children, on that same subject.  This is the
`path = []` case of `applyChangeAt`. -/
def applyResolved (subject : JSValue) (change : Change) : Except String JSValue :=
  match applyOwnFunc subject change with
  | .error e => .error e
  | .ok s1 =>
    match change.c with
    | none => .ok s1
    | some cs => applyChildren s1 cs

/-- Stated from the claim's words, for comparison with `findCommonPrefix`:
the longest common prefix of all the changes' paths, stopping only at a
change lacking a path (treating a present-but-empty path the same way), a
mismatched segment, or a ragged/missing segment — with *no* stop at a
present falsy segment. -/
def claimedCommonScan (p0 : List PathElem) (rest : List (List PathElem)) :
    List PathElem :=
  match p0 with
  | [] => []
  | e :: tl =>
    if rest.all (fun q => q.head? == some e) then
      e :: claimedCommonScan tl (rest.map List.tail)
    else []

/-- Stated from the claim's words; see `claimedCommonScan`. -/
def claimedCommonPath (changes : List Change) : List PathElem :=
  match changes with
  | [] => []
  | c0 :: rest =>
    if (c0 :: rest).all (fun ch => pTruthy ch.p) then
      claimedCommonScan (c0.p.getD []) (rest.map (fun ch => ch.p.getD []))
    else []

/-- The shape invariant of `unnestSingleChildren` output: the empty node,
a childless node with a truthy operation, or a node with at least two
children, each non-empty and of the same shape. -/
inductive Unnested : Change → Prop where
  | empty : Unnested emptyChange
  | leaf (p : Option (List PathElem)) (f : Option String) (a : Option (List JSValue))
      (hf : fTruthy f = true) : Unnested (.mk p f a none)
  | node (p : Option (List PathElem)) (f : Option String) (a : Option (List JSValue))
      (cs : List Change) (hlen : 2 ≤ cs.length)
      (hne : ∀ x ∈ cs, isNotEmpty x = true) (hun : ∀ x ∈ cs, Unnested x) :
      Unnested (.mk p f a (some cs))

/-! Part: Helper lemmas -/

theorem emptyIsPrefix {α : Type} {l : List α} : List.IsPrefix [] l :=
  ⟨l, rfl⟩

theorem unnestList_eq_map (l : List Change) :
    unnestList l = l.map unnestSingleChildren := by
  induction l with
  | nil => rfl
  | cons x xs ih => simp [unnestList, ih]

theorem matchAnyChild_of_mem (cs : List Change) (rest : List PathElem)
    (x : Change) (hmem : x ∈ cs) (hx : matchChange x rest = true) :
    matchAnyChild cs rest = true := by
  induction cs with
  | nil => cases hmem
  | cons y ys ih =>
    simp only [matchAnyChild, Bool.or_eq_true]
    rcases List.mem_cons.mp hmem with h | h
    · exact Or.inl (h ▸ hx)
    · exact Or.inr (ih h)

/-! Part: Claim theorems -/

/-- C6: `consolidateChanges` applied to the single empty raw change `{}`
yields the empty node (no path, no operation, no children), and applying
the empty node to any document leaves the document unchanged. -/
theorem consolidate_empty_and_apply_noop :
    consolidateChanges [emptyChange] none = emptyChange ∧
    ∀ doc : JSValue, applyChange doc emptyChange = Except.ok doc := by
  constructor
  · rfl
  · intro doc
    simp [applyChange, applyChangeAt, applyOwnFunc, emptyChange,
      Change.p, Change.f, Change.c, fTruthy]

/-- C3, counterexample: the claim predicts that `concat` places the other
collectors' rollbacks first *in argument order* (o1's, then o2's, then
self's); the code splices each argument's rollbacks at position 0, so with
two argument collectors the result starts with o2's rollbacks. -/
theorem concat_rollback_order_counterexample :
    (ChangeCollector.concat
        (ChangeCollector.mk (some [Change.mk none (some "f0") none none])
          (some [Change.mk none (some "r0") none none]))
        [ChangeCollector.mk (some [Change.mk none (some "f1") none none])
          (some [Change.mk none (some "r1") none none]),
         ChangeCollector.mk (some [Change.mk none (some "f2") none none])
          (some [Change.mk none (some "r2") none none])]).rollbackChanges =
      some [Change.mk none (some "r2") none none,
            Change.mk none (some "r1") none none,
            Change.mk none (some "r0") none none] ∧
    some [Change.mk none (some "r2") none none,
          Change.mk none (some "r1") none none,
          Change.mk none (some "r0") none none] ≠
      some [Change.mk none (some "r1") none none,
            Change.mk none (some "r2") none none,
            Change.mk none (some "r0") none none] := by
  constructor
  · rfl
  · simp

theorem collector_list_of_guard (o : Option (List Change))
    (hasFlag : Bool) (h : hasFlag = match o with | none => false | some l => !l.isEmpty) :
    (if hasFlag then o.getD [] else []) = o.getD [] := by
  subst h
  cases o with
  | none => simp
  | some l => cases l <;> simp

/-- C3, amended: `concat` produces a collector whose forward list is
self's followed by the others' in argument order, and whose rollback list
places the others' rollbacks first in *reverse* argument order (the last
argument's rollbacks first, the first argument's last), followed by self's
own rollbacks. -/
theorem concat_spec (self : ChangeCollector) (others : List ChangeCollector) :
    (self.concat others).forwardChanges =
      some (self.forwardChanges.getD [] ++
        (others.map (fun o => o.forwardChanges.getD [])).flatten) ∧
    (self.concat others).rollbackChanges =
      some ((others.reverse.map (fun o => o.rollbackChanges.getD [])).flatten ++
        self.rollbackChanges.getD []) := by
  have fold :
      ∀ (l : List ChangeCollector) (accF accR : List Change),
        l.foldl
          (fun (acc : List Change × List Change) other =>
            (acc.1 ++ (if other.hasChange then other.forwardChanges.getD [] else []),
             (if other.hasRollbackChange then other.rollbackChanges.getD [] else []) ++ acc.2))
          (accF, accR) =
        (accF ++ (l.map (fun o => o.forwardChanges.getD [])).flatten,
         (l.reverse.map (fun o => o.rollbackChanges.getD [])).flatten ++ accR) := by
    intro l
    induction l with
    | nil => simp
    | cons o rest ih =>
      intro accF accR
      simp only [List.foldl_cons, ih, List.map_cons, List.flatten,
        List.reverse_cons, List.map_append, List.flatten_append]
      rw [collector_list_of_guard o.forwardChanges o.hasChange rfl,
        collector_list_of_guard o.rollbackChanges o.hasRollbackChange rfl]
      simp [List.append_assoc]
  unfold ChangeCollector.concat
  simp only []
  rw [collector_list_of_guard self.forwardChanges self.hasChange rfl,
    collector_list_of_guard self.rollbackChanges self.hasRollbackChange rfl, fold]
  exact ⟨rfl, rfl⟩

/-- C2, counterexample: the claim predicts `matchChange` is true when some
child has no path but a direct operation; the code never inspects a
child's operation, so such a child does not produce a match. -/
theorem matchChange_op_child_counterexample :
    matchChange
      (Change.mk (some [.str "glyphs", .str "A"]) none none
        (some [Change.mk none (some "=") (some []) none]))
      [.str "glyphs", .str "A", .str "path"] = false := by
  rfl

/-- C2, amended: with node path `["glyphs","A"]` and target
`["glyphs","A","path"]`, `matchChange` returns true whenever some child
has path `["path"]`; a child with no path and only a direct operation (no
children) yields false; and a node whose path diverges at a segment (e.g.
`["glyphs","B"]`) yields false regardless of its children. -/
theorem matchChange_glyphs_path_spec :
    (∀ (f : Option String) (a : Option (List JSValue)) (cs : List Change)
        (x : Change), x ∈ cs → x.p = some [PathElem.str "path"] →
        matchChange (Change.mk (some [.str "glyphs", .str "A"]) f a (some cs))
          [.str "glyphs", .str "A", .str "path"] = true) ∧
    (∀ (f fn : Option String) (a a1 : Option (List JSValue)),
        matchChange (Change.mk (some [.str "glyphs", .str "A"]) f a
            (some [Change.mk none fn a1 none]))
          [.str "glyphs", .str "A", .str "path"] = false) ∧
    (∀ (f : Option String) (a : Option (List JSValue)) (c : Option (List Change)),
        matchChange (Change.mk (some [.str "glyphs", .str "B"]) f a c)
          [.str "glyphs", .str "A", .str "path"] = false) := by
  refine ⟨?_, ?_, ?_⟩
  · intro f a cs x hmem hp
    have hx : matchChange x [PathElem.str "path"] = true := by
      cases x with
      | mk px fx ax cx =>
        simp only [Change.p] at hp
        subst hp
        rfl
    have hred : matchChange
        (Change.mk (some [.str "glyphs", .str "A"]) f a (some cs))
        [.str "glyphs", .str "A", .str "path"] =
        matchAnyChild cs [PathElem.str "path"] := rfl
    rw [hred]
    exact matchAnyChild_of_mem cs _ x hmem hx
  · intro f fn a a1
    rfl
  · intro f a c
    cases c with
    | none => rfl
    | some cs => rfl

/-- C2, witness for `matchChange_glyphs_path_spec`. -/
theorem matchChange_glyphs_path_witness :
    matchChange
      (Change.mk (some [.str "glyphs", .str "A"]) none none
        (some [Change.mk (some [.str "path"]) (some "=") none none]))
      [.str "glyphs", .str "A", .str "path"] = true :=
  matchChange_glyphs_path_spec.1 none none
    [Change.mk (some [.str "path"]) (some "=") none none]
    (Change.mk (some [.str "path"]) (some "=") none none)
    (by simp) rfl

/-- C8: `push` clears the redo stack and pushes onto the undo stack;
`pop(isRedo)` removes the top record of the corresponding stack and pushes
that same record onto the other stack; consequently, from any stack state,
after pushing R, `pop(isRedo=false)` returns R leaving redo-peek R, and a
subsequent `pop(isRedo=true)` returns R again leaving undo-peek R. -/
theorem undo_stack_spec :
    (∀ (s : UndoStack) (r : UndoRecord),
        s.pushUndoRecord r = UndoStack.mk (s.undoStack ++ [r]) []) ∧
    (∀ (s : UndoStack) (r : UndoRecord), s.undoStack.getLast? = some r →
        s.popUndoRedoRecord false =
          (some r, UndoStack.mk s.undoStack.dropLast (s.redoStack ++ [r]))) ∧
    (∀ (s : UndoStack) (r : UndoRecord), s.redoStack.getLast? = some r →
        s.popUndoRedoRecord true =
          (some r, UndoStack.mk (s.undoStack ++ [r]) s.redoStack.dropLast)) ∧
    (∀ (s : UndoStack) (r : UndoRecord),
        ((s.pushUndoRecord r).popUndoRedoRecord false).1 = some r ∧
        ((s.pushUndoRecord r).popUndoRedoRecord false).2.getTopUndoRedoRecord true =
          some r ∧
        (((s.pushUndoRecord r).popUndoRedoRecord false).2.popUndoRedoRecord true).1 =
          some r ∧
        (((s.pushUndoRecord r).popUndoRedoRecord false).2.popUndoRedoRecord
            true).2.getTopUndoRedoRecord false = some r) := by
  refine ⟨?_, ?_, ?_, ?_⟩
  · intro s r
    rfl
  · intro s r h
    simp [UndoStack.popUndoRedoRecord, popUndoRedoRecordAux, h]
  · intro s r h
    simp [UndoStack.popUndoRedoRecord, popUndoRedoRecordAux, h]
  · intro s r
    simp [UndoStack.pushUndoRecord, UndoStack.popUndoRedoRecord,
      popUndoRedoRecordAux, UndoStack.getTopUndoRedoRecord,
      List.getLast?_concat, List.dropLast_concat]

/-- C8, witness for `undo_stack_spec`. -/
theorem undo_stack_spec_witness :
    (UndoStack.mk [UndoRecord.mk emptyChange emptyChange (UndoInfo.mk "x" none none)]
        []).undoStack.getLast? =
      some (UndoRecord.mk emptyChange emptyChange (UndoInfo.mk "x" none none)) ∧
    (UndoStack.mk [UndoRecord.mk emptyChange emptyChange (UndoInfo.mk "x" none none)]
        []).popUndoRedoRecord false =
      (some (UndoRecord.mk emptyChange emptyChange (UndoInfo.mk "x" none none)),
       UndoStack.mk []
         [UndoRecord.mk emptyChange emptyChange (UndoInfo.mk "x" none none)]) :=
  ⟨by simp,
   undo_stack_spec.2.1
     (UndoStack.mk [UndoRecord.mk emptyChange emptyChange (UndoInfo.mk "x" none none)] [])
     (UndoRecord.mk emptyChange emptyChange (UndoInfo.mk "x" none none)) (by simp)⟩

/-- C10: popping from an empty stack side returns `undefined` and leaves
both stacks unchanged; `undoRedoGlyph` on a glyph with no available record
returns `undefined` without applying a change, contacting the remote or
modifying controller state. -/
theorem undoRedo_no_record_spec :
    (∀ (pushStack : List UndoRecord),
        popUndoRedoRecordAux [] pushStack = (none, [], pushStack)) ∧
    (∀ (s : UndoStack) (isRedo : Bool),
        (if isRedo then s.redoStack else s.undoStack) = [] →
        s.popUndoRedoRecord isRedo = (none, s)) ∧
    (∀ (st : FontControllerState) (glyphName : String) (isRedo : Bool),
        (∀ stack, lookupStack st.undoStacks glyphName = some stack →
            (if isRedo then stack.redoStack else stack.undoStack) = []) →
        undoRedoGlyph st glyphName isRedo = (none, st, [])) := by
  have hpop : ∀ (s : UndoStack) (isRedo : Bool),
      (if isRedo then s.redoStack else s.undoStack) = [] →
      s.popUndoRedoRecord isRedo = (none, s) := by
    intro s isRedo h
    cases s with
    | mk u rdo =>
      cases isRedo with
      | false =>
        simp only [Bool.false_eq_true, if_false] at h
        subst h
        simp [UndoStack.popUndoRedoRecord, popUndoRedoRecordAux]
      | true =>
        simp only [if_pos] at h
        subst h
        simp [UndoStack.popUndoRedoRecord, popUndoRedoRecordAux]
  refine ⟨fun _ => rfl, hpop, ?_⟩
  intro st glyphName isRedo h
  cases hlook : lookupStack st.undoStacks glyphName with
  | none => simp [undoRedoGlyph, hlook]
  | some stack =>
    have hp := hpop stack isRedo (h stack hlook)
    simp [undoRedoGlyph, hlook, hp]

theorem zap_fold_mem (g : String) (l : List String) (ub : String → Finset String)
    (a b : String) :
    (b ∈ (l.foldl (fun ub componentName =>
        Function.update ub componentName ((ub componentName).erase g)) ub) a) ↔
      (b ∈ ub a ∧ ¬(b = g ∧ a ∈ l)) := by
  induction l generalizing ub with
  | nil => simp
  | cons c tl ih =>
    simp only [List.foldl_cons]
    rw [ih]
    simp only [Function.update_apply, List.mem_cons]
    by_cases hac : a = c
    · simp [hac, Finset.mem_erase] <;> tauto
    · simp [hac]

theorem add_fold_mem (g : String) (l : List String) (ub : String → Finset String)
    (a b : String) :
    (b ∈ (l.foldl (fun ub componentName =>
        Function.update ub componentName (insert g (ub componentName))) ub) a) ↔
      (b ∈ ub a ∨ (b = g ∧ a ∈ l)) := by
  induction l generalizing ub with
  | nil => simp
  | cons c tl ih =>
    simp only [List.foldl_cons]
    rw [ih]
    simp only [Function.update_apply, List.mem_cons]
    by_cases hac : a = c
    · simp [hac, Finset.mem_insert] <;> tauto
    · simp [hac]

/-- C9: `glyphUsedBy` is exactly the transpose of `glyphMadeOf` (`b` is in
`usedBy[a]` iff `a` is in `madeOf[b]`); the invariant is re-established by
every `updateGlyphDependencies` call, which sweeps the stale reverse
entries of the previous dependency list first. -/
theorem updateGlyphDependencies_transpose (st : GlyphDeps) (glyphName : String)
    (componentNames : List String) (h : transposeInv st) :
    transposeInv (updateGlyphDependencies st glyphName componentNames) := by
  intro a b
  unfold updateGlyphDependencies
  simp only []
  rw [add_fold_mem, zap_fold_mem, Function.update_apply]
  by_cases hbg : b = glyphName
  · subst hbg
    simp only [if_pos rfl]
    have hb := h a b
    tauto
  · simp only [if_neg hbg]
    have hb := h a b
    tauto

/-- C9, witness for `updateGlyphDependencies_transpose`. -/
theorem updateGlyphDependencies_transpose_witness :
    transposeInv (GlyphDeps.mk (fun _ => []) (fun _ => ∅)) ∧
    transposeInv (updateGlyphDependencies
      (GlyphDeps.mk (fun _ => []) (fun _ => ∅)) "A" ["B"]) :=
  ⟨fun a b => by simp,
   updateGlyphDependencies_transpose _ _ _ (fun a b => by simp)⟩

/-- C4: the code violates the claim.  `editFinal` does not clear
`_throttledEditIncrementalTimeoutID`, so a throttled incremental send that
is pending when the final commit is issued stays pending and its timer
later delivers the stale incremental change *after* the final commit: in
the trace below, an immediate send at t=100 is followed by a throttled
call at t=120 (within the 50ms window, so it only schedules), then
`editFinal` commits with the timer still pending, and the timer fires
afterwards. -/
theorem editFinal_pending_throttle_bug :
    (editFinal
        (editIncremental
          (editIncremental
            (EditSessionState.mk [PathElem.str "glyphs", PathElem.str "A"] 0 none [])
            100 (Change.mk (some [.str "x"]) (some "=") (some [.str "k", .num 1]) none)
            true)
          120 (Change.mk (some [.str "x"]) (some "=") (some [.str "k", .num 2]) none)
          true)
        (Change.mk (some [.str "x"]) (some "=") (some [.str "k", .num 2]) none)
        (Change.mk (some [.str "x"]) (some "=") (some [.str "k", .num 1]) none)
        "move" true).pending =
      some (consolidateChanges
        [Change.mk (some [.str "x"]) (some "=") (some [.str "k", .num 2]) none]
        (some [PathElem.str "glyphs", PathElem.str "A"])) ∧
    (timerFire (editFinal
        (editIncremental
          (editIncremental
            (EditSessionState.mk [PathElem.str "glyphs", PathElem.str "A"] 0 none [])
            100 (Change.mk (some [.str "x"]) (some "=") (some [.str "k", .num 1]) none)
            true)
          120 (Change.mk (some [.str "x"]) (some "=") (some [.str "k", .num 2]) none)
          true)
        (Change.mk (some [.str "x"]) (some "=") (some [.str "k", .num 2]) none)
        (Change.mk (some [.str "x"]) (some "=") (some [.str "k", .num 1]) none)
        "move" true)).sent =
      [SentMessage.incrementalMsg (consolidateChanges
          [Change.mk (some [.str "x"]) (some "=") (some [.str "k", .num 1]) none]
          (some [PathElem.str "glyphs", PathElem.str "A"])),
       SentMessage.finalMsg
         (consolidateChanges
           [Change.mk (some [.str "x"]) (some "=") (some [.str "k", .num 2]) none]
           (some [PathElem.str "glyphs", PathElem.str "A"]))
         (consolidateChanges
           [Change.mk (some [.str "x"]) (some "=") (some [.str "k", .num 1]) none]
           (some [PathElem.str "glyphs", PathElem.str "A"])) "move" true,
       SentMessage.incrementalMsg (consolidateChanges
          [Change.mk (some [.str "x"]) (some "=") (some [.str "k", .num 2]) none]
          (some [PathElem.str "glyphs", PathElem.str "A"]))] :=
  ⟨rfl, rfl⟩

theorem applyChangeAt_nil (subject : JSValue) (change : Change) :
    applyChangeAt subject [] change = applyResolved subject change := by
  simp only [applyChangeAt, applyResolved]
  cases applyOwnFunc subject change with
  | error e => rfl
  | ok s1 => cases hcc : change.c <;> rfl

theorem applyChangeAt_decompose :
    ∀ (path : List PathElem) (subject : JSValue) (change : Change),
      applyChangeAt subject path change =
        if descendOk subject path then
          match applyResolved (iterGet subject path) change with
          | .error e => .error e
          | .ok r => .ok (setAtPath subject path r)
        else .error "assert -- invalid change path" := by
  intro path
  induction path with
  | nil =>
    intro subject change
    rw [applyChangeAt_nil]
    simp only [descendOk, iterGet, setAtPath, if_true]
    cases applyResolved subject change <;> simp
  | cons e rest ih =>
    intro subject change
    simp only [applyChangeAt]
    cases hu : (getProp subject e).isUndefined with
    | true =>
      simp [descendOk, hu]
    | false =>
      simp only [hu, Bool.not_false, if_false, Bool.false_eq_true]
      rw [ih]
      simp only [descendOk, hu, Bool.not_false, Bool.true_and, iterGet, setAtPath]
      cases hd : descendOk (getProp subject e) rest with
      | true =>
        simp only [if_pos rfl]
        cases applyResolved (iterGet (getProp subject e) rest) change <;> simp
      | false =>
        simp

theorem descendOk_false_iff :
    ∀ (path : List PathElem) (subject : JSValue),
      descendOk subject path = false ↔
        ∃ i, i < path.length ∧ (iterGet subject (path.take (i + 1))).isUndefined = true := by
  intro path
  induction path with
  | nil =>
    intro subject
    simp [descendOk]
  | cons e rest ih =>
    intro subject
    simp only [descendOk]
    cases hu : (getProp subject e).isUndefined with
    | true =>
      simp only [Bool.not_true, Bool.false_and]
      constructor
      · intro _
        exact ⟨0, Nat.succ_pos _, by simp [List.take_succ_cons, iterGet, hu]⟩
      · intro _
        trivial
    | false =>
      simp only [Bool.not_false, Bool.true_and]
      rw [ih]
      constructor
      · rintro ⟨j, hj, hval⟩
        refine ⟨j + 1, by simp; omega, ?_⟩
        simpa [List.take_succ_cons, iterGet] using hval
      · rintro ⟨i, hi, hval⟩
        cases i with
        | zero =>
          rw [List.take_succ_cons] at hval
          simp only [List.take_zero, iterGet] at hval
          rw [hu] at hval
          cases hval
        | succ j =>
          refine ⟨j, by simp at hi; omega, ?_⟩
          simpa [List.take_succ_cons, iterGet] using hval

/-- C5, amended: `applyChange` descends the document root along the
node's path, *throwing if* some path segment resolves to an
undefined/missing value (the descent-failure condition is characterized
exactly by the second conjunct); when the descent succeeds it applies the
node's operation (if present) and then each child, in order, to the
resolved subject, the updated subject being written back along the path
(the in-place mutation of the JS code).  The claim's "if and only if" does
not hold: unknown operation names (and failing operations) also throw, as
the counterexample shows. -/
theorem applyChange_descent_spec :
    (∀ (subject : JSValue) (change : Change),
        applyChange subject change =
          if descendOk subject (change.p.getD []) then
            match applyResolved (iterGet subject (change.p.getD [])) change with
            | .error e => .error e
            | .ok r => .ok (setAtPath subject (change.p.getD []) r)
          else .error "assert -- invalid change path") ∧
    (∀ (subject : JSValue) (path : List PathElem),
        descendOk subject path = false ↔
          ∃ i, i < path.length ∧ (iterGet subject (path.take (i + 1))).isUndefined = true) ∧
    (∀ (subject : JSValue) (change : Change),
        applyChangeAt subject [] change = applyResolved subject change) := by
  refine ⟨?_, ?_, applyChangeAt_nil⟩
  · intro subject change
    have h0 : applyChange subject change =
        applyChangeAt subject (change.p.getD []) change := by
      simp [applyChange]
    rw [h0, applyChangeAt_decompose]
  · intro subject path
    exact descendOk_false_iff path subject

/-- C5, counterexample: with an empty path no segment can resolve to
`undefined` (the descent trivially succeeds), yet `applyChange` still
throws, because the operation name is not registered (`changeFunc` is
`undefined` and calling it is a `TypeError`).  So "throws if and only if
some path segment resolves to an undefined value" is false. -/
theorem applyChange_unknown_op_counterexample :
    descendOk (JSValue.obj [])
      ((Change.mk none (some "nosuchop") none none).p.getD []) = true ∧
    applyChange (JSValue.obj []) (Change.mk none (some "nosuchop") none none) =
      Except.error "changeFunc is not a function" := by
  constructor
  · rfl
  · simp [applyChange, applyChangeAt, applyOwnFunc, changeFunctions, fTruthy,
      Change.p, Change.f, Change.a, Change.c]

/-- C1, counterexample: with both changes at path `["a", 0]`, the longest
common prefix under the claim's stopping conditions is `["a", 0]` (neither
change lacks a path, no segment mismatches, nothing is ragged or missing),
but `findCommonPrefix` also stops at the falsy segment `0` (the JS test
`!pathElement`), so consolidation hoists only `["a"]` and leaves the `0`
segment in the children. -/
theorem consolidate_common_path_counterexample :
    claimedCommonPath
      [Change.mk (some [.str "a", .num 0]) (some "=") none none,
       Change.mk (some [.str "a", .num 0]) (some "d") none none] =
      [PathElem.str "a", PathElem.num 0] ∧
    findCommonPrefix
      [Change.mk (some [.str "a", .num 0]) (some "=") none none,
       Change.mk (some [.str "a", .num 0]) (some "d") none none] =
      [PathElem.str "a"] ∧
    (consolidateChanges
       [Change.mk (some [.str "a", .num 0]) (some "=") none none,
        Change.mk (some [.str "a", .num 0]) (some "d") none none] none).p =
      some [PathElem.str "a"] ∧
    ([PathElem.str "a"] : List PathElem) ≠ [PathElem.str "a", PathElem.num 0] :=
  ⟨rfl, rfl, rfl, by simp⟩

theorem commonPrefixScan_isPrefix :
    ∀ (p0 : List PathElem) (rest : List (List PathElem)),
      List.IsPrefix (commonPrefixScan p0 rest) p0 ∧
      ∀ q ∈ rest, List.IsPrefix (commonPrefixScan p0 rest) q := by
  intro p0
  induction p0 with
  | nil =>
    intro rest
    exact ⟨emptyIsPrefix, fun q _ => emptyIsPrefix⟩
  | cons e tl ih =>
    intro rest
    simp only [commonPrefixScan]
    by_cases hf : e.isFalsy = true
    · rw [if_pos hf]
      exact ⟨emptyIsPrefix, fun q _ => emptyIsPrefix⟩
    · rw [if_neg hf]
      by_cases hall : rest.all (fun q => q.head? == some e) = true
      · rw [if_pos hall]
        obtain ⟨h1, h2⟩ := ih (rest.map List.tail)
        constructor
        · obtain ⟨t, ht⟩ := h1
          exact ⟨t, by simp [ht]⟩
        · intro q hq
          have hqh : q.head? = some e := by
            have hb := List.all_eq_true.mp hall q hq
            exact beq_iff_eq.mp hb
          cases q with
          | nil => simp at hqh
          | cons m ms =>
            simp only [List.head?_cons, Option.some.injEq] at hqh
            subst hqh
            have hms := h2 ms (List.mem_map.mpr ⟨m :: ms, hq, rfl⟩)
            obtain ⟨t, ht⟩ := hms
            exact ⟨t, by simp [ht]⟩
      · rw [if_neg hall]
        exact ⟨emptyIsPrefix, fun q _ => emptyIsPrefix⟩

theorem commonPrefixScan_truthy :
    ∀ (p0 : List PathElem) (rest : List (List PathElem)) (e : PathElem),
      e ∈ commonPrefixScan p0 rest → e.isFalsy = false := by
  intro p0
  induction p0 with
  | nil =>
    intro rest e he
    simp [commonPrefixScan] at he
  | cons e0 tl ih =>
    intro rest e he
    simp only [commonPrefixScan] at he
    by_cases hf : e0.isFalsy = true
    · rw [if_pos hf] at he
      simp at he
    · rw [if_neg hf] at he
      by_cases hall : rest.all (fun q => q.head? == some e0) = true
      · rw [if_pos hall] at he
        rcases List.mem_cons.mp he with h | h
        · subst h
          exact Bool.not_eq_true _ ▸ (Bool.eq_false_iff.mpr hf)
        · exact ih _ e h
      · rw [if_neg hall] at he
        simp at he

theorem commonPrefixScan_maximal :
    ∀ (q : List PathElem), (∀ e ∈ q, e.isFalsy = false) →
      ∀ (p0 : List PathElem) (rest : List (List PathElem)),
        List.IsPrefix q p0 → (∀ r ∈ rest, List.IsPrefix q r) →
        List.IsPrefix q (commonPrefixScan p0 rest) := by
  intro q
  induction q with
  | nil =>
    intro _ p0 rest _ _
    exact emptyIsPrefix
  | cons e q1 ih =>
    intro htr p0 rest hp hr
    obtain ⟨t, ht⟩ := hp
    cases p0 with
    | nil => simp at ht
    | cons x tl =>
      rw [List.cons_append] at ht
      injection ht with hex htl
      subst hex
      simp only [commonPrefixScan]
      have hf : e.isFalsy = false := htr e (List.mem_cons_self e q1)
      rw [if_neg (by simp [hf])]
      have hall : rest.all (fun r => r.head? == some e) = true := by
        apply List.all_eq_true.mpr
        intro r hrmem
        obtain ⟨t2, ht2⟩ := hr r hrmem
        cases r with
        | nil => simp at ht2
        | cons m ms =>
          rw [List.cons_append] at ht2
          injection ht2 with hem _
          subst hem
          simp
      rw [if_pos hall]
      have hq1 : List.IsPrefix q1 (commonPrefixScan tl (rest.map List.tail)) := by
        apply ih (fun e2 he2 => htr e2 (List.mem_cons_of_mem e he2)) tl
        · exact ⟨t, htl⟩
        · intro r2 hr2
          obtain ⟨r, hrmem, hrt⟩ := List.mem_map.mp hr2
          obtain ⟨t3, ht3⟩ := hr r hrmem
          cases r with
          | nil => simp at ht3
          | cons m ms =>
            rw [List.cons_append] at ht3
            injection ht3 with _ hms
            subst hrt
            exact ⟨t3, hms⟩
      obtain ⟨t4, ht4⟩ := hq1
      exact ⟨t4, by simp [ht4]⟩

theorem pTruthy_false_getD (p : Option (List PathElem)) (h : pTruthy p = false) :
    p.getD [] = [] := by
  cases p with
  | none => rfl
  | some l =>
    simp only [pTruthy] at h
    simp only [Option.getD_some]
    cases l with
    | nil => rfl
    | cons _ _ => simp at h

/-- C1, amended: `findCommonPrefix` computes the longest common prefix of
all the changes' paths consisting of *truthy* segments: it is a common
prefix of every change's path (first conjunct), contains no falsy segment
— the scan also stops at a present segment that is the number 0 or the
empty string (second conjunct) — and extends every truthy common prefix
(third conjunct); for two or more raw changes, `consolidateChanges` sets
this prefix (when non-empty) as the node's path and strips it from each
child (otherwise it only removes present-but-empty path fields), then runs
the unnesting pass (fourth conjunct); the claim's example holds when the
two changes carry operations (fifth conjunct). -/
theorem consolidate_common_path_spec :
    (∀ (changes : List Change) (ch : Change), ch ∈ changes →
        List.IsPrefix (findCommonPrefix changes) (ch.p.getD [])) ∧
    (∀ (changes : List Change) (e : PathElem), e ∈ findCommonPrefix changes →
        e.isFalsy = false) ∧
    (∀ (changes : List Change) (q : List PathElem), changes ≠ [] →
        (∀ e ∈ q, e.isFalsy = false) →
        (∀ ch ∈ changes, List.IsPrefix q (ch.p.getD [])) →
        List.IsPrefix q (findCommonPrefix changes)) ∧
    (∀ (x y : Change) (ys : List Change),
        consolidateChanges (x :: y :: ys) none =
          unnestSingleChildren
            (Change.mk
              (if (findCommonPrefix (x :: y :: ys)).isEmpty then none
               else some (findCommonPrefix (x :: y :: ys)))
              none none
              (some (if (findCommonPrefix (x :: y :: ys)).length ≠ 0 then
                  (x :: y :: ys).map (fun ch =>
                    let np := (ch.p.getD []).drop
                      (findCommonPrefix (x :: y :: ys)).length
                    Change.mk (if np.isEmpty then none else some np) ch.f ch.a ch.c)
                else
                  (x :: y :: ys).map (fun ch =>
                    if ch.p == some [] then Change.mk none ch.f ch.a ch.c
                    else ch))))) ∧
    (consolidateChanges
        [Change.mk (some [.str "a", .str "b"]) (some "=") none none,
         Change.mk (some [.str "a", .str "c"]) (some "d") none none] none =
      Change.mk (some [.str "a"]) none none
        (some [Change.mk (some [.str "b"]) (some "=") none none,
               Change.mk (some [.str "c"]) (some "d") none none])) := by
  refine ⟨?_, ?_, ?_, ?_, by rfl⟩
  · intro changes ch hch
    cases changes with
    | nil => cases hch
    | cons c0 rest =>
      simp only [findCommonPrefix]
      by_cases hall : (c0 :: rest).all (fun ch => pTruthy ch.p) = true
      · rw [if_pos hall]
        obtain ⟨h1, h2⟩ := commonPrefixScan_isPrefix (c0.p.getD [])
          (rest.map (fun ch => ch.p.getD []))
        rcases List.mem_cons.mp hch with h | h
        · subst h
          exact h1
        · exact h2 _ (List.mem_map.mpr ⟨ch, h, rfl⟩)
      · rw [if_neg hall]
        exact emptyIsPrefix
  · intro changes e he
    cases changes with
    | nil => simp [findCommonPrefix] at he
    | cons c0 rest =>
      simp only [findCommonPrefix] at he
      by_cases hall : (c0 :: rest).all (fun ch => pTruthy ch.p) = true
      · rw [if_pos hall] at he
        exact commonPrefixScan_truthy _ _ e he
      · rw [if_neg hall] at he
        simp at he
  · intro changes q hne htr hq
    cases changes with
    | nil => exact absurd rfl hne
    | cons c0 rest =>
      simp only [findCommonPrefix]
      by_cases hall : (c0 :: rest).all (fun ch => pTruthy ch.p) = true
      · rw [if_pos hall]
        apply commonPrefixScan_maximal q htr
        · exact hq c0 (List.mem_cons_self c0 rest)
        · intro r hr
          obtain ⟨ch, hch, hcht⟩ := List.mem_map.mp hr
          exact hcht ▸ hq ch (List.mem_cons_of_mem c0 hch)
      · rw [if_neg hall]
        simp only [List.all_eq_true, not_forall] at hall
        obtain ⟨ch, hch, hchf⟩ := hall
        have hempty : ch.p.getD [] = [] :=
          pTruthy_false_getD ch.p (Bool.eq_false_iff.mpr hchf)
        have hthis := hq ch hch
        rw [hempty] at hthis
        exact hthis
  · intro x y ys
    cases hfc : findCommonPrefix (x :: y :: ys) with
    | nil => simp [consolidateChanges, hfc, pTruthy, Change.p, Change.f, Change.a, Change.c]
    | cons e r => simp [consolidateChanges, hfc, pTruthy, Change.p, Change.f, Change.a, Change.c]

/-- C1, witness for `consolidate_common_path_spec`: at the paths
`["a","b"]` / `["a","c"]` the truthy common prefix `["a"]` is a prefix of
the computed common path. -/
theorem consolidate_common_path_witness :
    List.IsPrefix [PathElem.str "a"]
      (findCommonPrefix
        [Change.mk (some [.str "a", .str "b"]) (some "=") none none,
         Change.mk (some [.str "a", .str "c"]) (some "d") none none]) :=
  consolidate_common_path_spec.2.2.1
    [Change.mk (some [.str "a", .str "b"]) (some "=") none none,
     Change.mk (some [.str "a", .str "c"]) (some "d") none none]
    [PathElem.str "a"]
    (by simp)
    (by
      intro e he
      simp only [List.mem_singleton] at he
      subst he
      rfl)
    (by
      intro ch hch
      rcases List.mem_cons.mp hch with h | h
      · subst h
        exact ⟨[PathElem.str "b"], rfl⟩
      · rcases List.mem_cons.mp h with h2 | h2
        · subst h2
          exact ⟨[PathElem.str "c"], rfl⟩
        · cases h2)

/-- Strong induction for the nested `Change` type: to prove a property of
every change it suffices to prove it of a node assuming it for all
children. -/
theorem Change.strongInduction (motive : Change → Prop)
    (step : ∀ p f a c,
      (∀ cs, c = some cs → ∀ x ∈ cs, motive x) → motive (Change.mk p f a c)) :
    ∀ ch, motive ch := by
  have key : ∀ (n : Nat) (ch : Change), sizeOf ch ≤ n → motive ch := by
    intro n
    induction n with
    | zero =>
      intro ch h
      cases ch with
      | mk p f a c =>
        simp only [Change.mk.sizeOf_spec] at h
        omega
    | succ n ih =>
      intro ch _h
      cases ch with
      | mk p f a c =>
        apply step
        intro cs hcs x hx
        apply ih
        subst hcs
        have h1 : sizeOf x < sizeOf cs := List.sizeOf_lt_of_mem hx
        simp only [Change.mk.sizeOf_spec, Option.some.sizeOf_spec] at _h
        omega
  intro ch
  exact key (sizeOf ch) ch le_rfl

theorem unnest_unnested : ∀ ch, Unnested (unnestSingleChildren ch) := by
  apply Change.strongInduction
  intro p f a c ihAll
  cases c with
  | none =>
    simp only [unnestSingleChildren]
    by_cases hf : fTruthy f
    · rw [if_pos hf]
      exact Unnested.leaf p f a hf
    · rw [if_neg hf]
      exact Unnested.empty
  | some cs =>
    have ih : ∀ x ∈ cs, Unnested (unnestSingleChildren x) := ihAll cs rfl
    simp only [unnestSingleChildren]
    have hmem : ∀ y ∈ (unnestList cs).filter isNotEmpty,
        Unnested y ∧ isNotEmpty y = true := by
      intro y hy
      have h1 := List.mem_filter.mp hy
      rw [unnestList_eq_map] at h1
      obtain ⟨x, hx, hxy⟩ := List.mem_map.mp h1.1
      exact ⟨hxy ▸ ih x hx, h1.2⟩
    revert hmem
    generalize (unnestList cs).filter isNotEmpty = ys
    intro hmem
    match ys, hmem with
    | [], _ =>
      by_cases hf : fTruthy f
      · rw [if_pos hf]
        exact Unnested.leaf p f a hf
      · rw [if_neg hf]
        exact Unnested.empty
    | [child], hmem =>
      obtain ⟨hU, hNE⟩ := hmem child (List.mem_singleton.mpr rfl)
      cases hU with
      | empty => simp [isNotEmpty, emptyChange, Change.p, Change.f, Change.a, Change.c] at hNE
      | leaf p1 f1 a1 hf1 =>
        exact Unnested.leaf _ f1 a1 hf1
      | node p1 f1 a1 cs1 hlen1 hne1 hun1 =>
        exact Unnested.node _ f1 a1 cs1 hlen1 hne1 hun1
    | y1 :: y2 :: yrest, hmem =>
      refine Unnested.node p f a _ (by simp) ?_ ?_
      · intro x hx
        exact (hmem x hx).2
      · intro x hx
        exact (hmem x hx).1

theorem list_map_id_of {α : Type} (g : α → α) :
    ∀ (l : List α), (∀ x ∈ l, g x = x) → l.map g = l := by
  intro l
  induction l with
  | nil => intro _; rfl
  | cons x xs ih =>
    intro h
    simp only [List.map_cons]
    rw [h x (List.mem_cons_self x xs), ih (fun y hy => h y (List.mem_cons_of_mem x hy))]

theorem unnest_of_unnested : ∀ ch, Unnested ch → unnestSingleChildren ch = ch := by
  intro ch h
  induction h with
  | empty => rfl
  | leaf p f a hf =>
    simp only [unnestSingleChildren]
    rw [if_pos hf]
  | node p f a cs hlen hne hun ih =>
    simp only [unnestSingleChildren]
    have hmap : unnestList cs = cs := by
      rw [unnestList_eq_map]
      exact list_map_id_of _ cs ih
    rw [hmap, List.filter_eq_self.mpr hne]
    match cs, hlen with
    | x :: y :: rest, _ => rfl

theorem unnest_top_path (ch : Change) (h : ch.p ≠ some []) :
    (unnestSingleChildren ch).p ≠ some [] := by
  cases ch with
  | mk p f a c =>
    simp only [Change.p] at h
    cases c with
    | none =>
      simp only [unnestSingleChildren]
      by_cases hf : fTruthy f
      · rw [if_pos hf]
        exact h
      · rw [if_neg hf]
        simp [emptyChange, Change.p]
    | some cs =>
      simp only [unnestSingleChildren]
      generalize (unnestList cs).filter isNotEmpty = ys
      match ys with
      | [] =>
        by_cases hf : fTruthy f
        · rw [if_pos hf]
          exact h
        · rw [if_neg hf]
          simp [emptyChange, Change.p]
      | [child] =>
        cases child with
        | mk cp cf ca cc =>
          simp only [Change.p]
          split <;> split <;> simp_all
      | y1 :: y2 :: yrest =>
        exact h

/-- The single-argument case of `consolidateChanges`: normalize the top
path, then unnest. -/
theorem consolidate_single_eq (z : Change) :
    consolidateChanges [z] none =
      unnestSingleChildren
        (if pTruthy z.p then Change.mk z.p z.f z.a z.c
         else Change.mk none z.f z.a z.c) := rfl

/-- C7: consolidation is idempotent on singletons: for a single raw change
with a (non-empty) operation, `consolidate([x])` equals
`consolidate([consolidate([x])])`. -/
theorem consolidate_single_idempotent (x : Change) (hf : fTruthy x.f = true) :
    consolidateChanges [x] none =
      consolidateChanges [consolidateChanges [x] none] none := by
  have hyU : Unnested (consolidateChanges [x] none) := by
    rw [consolidate_single_eq]
    exact unnest_unnested _
  have hyp : (consolidateChanges [x] none).p ≠ some [] := by
    rw [consolidate_single_eq]
    apply unnest_top_path
    cases x with
    | mk xp xf xa xc =>
      cases xp with
      | none => simp [pTruthy, Change.p]
      | some l =>
        cases l with
        | nil => simp [pTruthy, Change.p]
        | cons e tl => simp [pTruthy, Change.p]
  rw [consolidate_single_eq (consolidateChanges [x] none)]
  have hnorm :
      (if pTruthy (consolidateChanges [x] none).p then
        Change.mk (consolidateChanges [x] none).p (consolidateChanges [x] none).f
          (consolidateChanges [x] none).a (consolidateChanges [x] none).c
       else
        Change.mk none (consolidateChanges [x] none).f
          (consolidateChanges [x] none).a (consolidateChanges [x] none).c) =
      consolidateChanges [x] none := by
    cases hy : consolidateChanges [x] none with
    | mk yp yf ya yc =>
      rw [hy] at hyp
      simp only [Change.p] at hyp
      cases yp with
      | none => simp [pTruthy, Change.p, Change.f, Change.a, Change.c]
      | some l =>
        cases l with
        | nil => exact absurd rfl hyp
        | cons e tl => simp [pTruthy, Change.p, Change.f, Change.a, Change.c]
  rw [hnorm]
  exact (unnest_of_unnested _ hyU).symm

/-- C7, witness for `consolidate_single_idempotent`. -/
theorem consolidate_single_idempotent_witness :
    fTruthy (Change.mk (some [.str "a"]) (some "=") (some [.num 1]) none).f = true ∧
    consolidateChanges [Change.mk (some [.str "a"]) (some "=") (some [.num 1]) none]
        none =
      consolidateChanges
        [consolidateChanges
          [Change.mk (some [.str "a"]) (some "=") (some [.num 1]) none] none] none :=
  ⟨rfl, consolidate_single_idempotent _ rfl⟩

/-- C10, witness for `undoRedo_no_record_spec`. -/
theorem undoRedo_no_record_witness :
    undoRedoGlyph (FontControllerState.mk [("A", UndoStack.mk [] [])]) "A" false =
      (none, FontControllerState.mk [("A", UndoStack.mk [] [])], []) :=
  undoRedo_no_record_spec.2.2 (FontControllerState.mk [("A", UndoStack.mk [] [])])
    "A" false
    (by
      intro stack hstack
      simp [lookupStack] at hstack
      subst hstack
      simp)
